import Mathlib

/-!
Verification of the Lebwohl-Lasher Monte Carlo simulation.

Shallow embedding of `LebwohlLasher_mpi.py` (and the reporting line shared with
`LebwohlLasher_numpy.py`): the energy model, the order-parameter calculator,
the checkerboard Metropolis update, the domain partitioner, the ring-neighbour
assignment, the worker step loop, and the pre-sweep configuration checks.

Conventions: `numpy` arrays of shape `(r, c)` are embedded as functions
`Fin r → Fin c → ℝ`; `np.roll` is embedded with its index arithmetic
(`np.roll(a, s)[i] = a[(i - s) mod r]`); floating point numbers are embedded
as real numbers.
-/

namespace LebwohlLasher

open Matrix

/-! ## Constants (source lines 345-351) -/

/-- `MAXWORKER = 17`: maximum number of worker tasks. -/
def MAXWORKER : ℕ := 17

/-- `MINWORKER = 1`: minimum number of worker tasks. -/
def MINWORKER : ℕ := 1

/-! ## Pre-sweep configuration checks

The `__main__` block (lines 536-545) rejects a run only when the argument
count differs from 5; `main` (lines 383-385, coordinator branch) aborts only
when the worker count lies outside `[MINWORKER, MAXWORKER]`.  Neither place
inspects the temperature: it is parsed and passed straight to the sweeps.
The `temp` argument below is therefore unused, mirroring the source. -/

/-- Whether the run is refused before any Monte-Carlo sweep is performed:
the argument count must be 5 (line 537) and the number of workers must lie
in `[MINWORKER, MAXWORKER]` (line 383).  The temperature is never checked. -/
def run_aborts_before_sweep (argc numworkers : ℕ) (_temp : ℝ) : Bool :=
  (argc != 5) || (numworkers > MAXWORKER) || (numworkers < MINWORKER)

/-! ## Summary-line reporting (mpi line 474, numpy line 407)

Both programs build per-step series arrays of length `nsteps + 1`
(index 0 = initial state, index `t` = value after step `t`) and print
`order[nsteps-1]` in the final summary line.  The reporting component is
embedded as a function of the computed order series. -/

/-- The order-parameter value placed in the printed summary line:
`order[nsteps-1]` (source line 474 resp. 407). -/
def reported_order (order : ℕ → ℝ) (nsteps : ℕ) : ℝ :=
  order (nsteps - 1)

/-! ## Ring neighbour assignment (source lines 418-426) -/

/-- The `above` neighbour of worker `i` among `numworkers` workers
(lines 418-426). -/
def aboveOf (numworkers i : ℕ) : ℕ :=
  if i = 1 then numworkers
  else if i = numworkers then numworkers - 1
  else i - 1

/-- The `below` neighbour of worker `i` among `numworkers` workers
(lines 418-426). -/
def belowOf (numworkers i : ℕ) : ℕ :=
  if i = 1 then (if 1 < numworkers then 2 else 1)
  else if i = numworkers then 1
  else i + 1

/-! ## Domain partitioner (source lines 404-415, 448-452) -/

/-- `averow = nmax // numworkers` (line 404). -/
def averow (nmax numworkers : ℕ) : ℕ := nmax / numworkers

/-- `extra = nmax % numworkers` (line 405). -/
def extra (nmax numworkers : ℕ) : ℕ := nmax % numworkers

/-- Rows assigned to worker `i` (1-based): `averow`, plus one when
`i <= extra` (lines 412-414). -/
def rowsOf (nmax numworkers i : ℕ) : ℕ :=
  averow nmax numworkers + if i ≤ extra nmax numworkers then 1 else 0

/-- The `offset` variable as seen by worker `i` (1-based): it starts at 0
(line 406) and the loop adds `rows` after each worker (line 436), so worker
`i` receives the block starting at the sum of the previous workers' rows. -/
def offsetOf (nmax numworkers : ℕ) : ℕ → ℕ
  | 0 => 0
  | 1 => 0
  | (i + 2) => offsetOf nmax numworkers (i + 1) + rowsOf nmax numworkers (i + 1)

/-! ## Worker per-step event trace (source lines 504-515)

The worker loop body executes, in textual order: the Metropolis sweep
(`MC_step`, line 506, which also yields the acceptance ratio), the energy
measurement (`all_energy`, line 507), the order measurement (`get_order`,
line 508), and finally the halo exchange (lines 511-515). -/

/-- Events of the worker loop, tagged with their step index. -/
inductive WEvent : Type
  | sweep (t : ℕ)
  | measureEnergy (t : ℕ)
  | measureOrder (t : ℕ)
  | exchange (t : ℕ)
deriving DecidableEq, Repr

/-- The events of one iteration of the worker loop, in source order
(lines 506, 507, 508, 511-515). -/
def stepTrace (t : ℕ) : List WEvent :=
  [WEvent.sweep t, WEvent.measureEnergy t, WEvent.measureOrder t, WEvent.exchange t]

/-- The event trace of the whole worker loop `for it in range(nsteps)`
(line 504). -/
def workerTrace (nsteps : ℕ) : List WEvent :=
  (List.range nsteps).flatMap stepTrace

/-! ## Basic facts about the trace -/

/-- The step a worker-loop event belongs to. -/
def WEvent.step : WEvent → ℕ
  | .sweep t => t
  | .measureEnergy t => t
  | .measureOrder t => t
  | .exchange t => t

/-! ## Energy model (source lines 197-238)

`numpy` arrays of shape `(r, c)` are embedded as `Fin r → Fin c → ℝ`. -/

noncomputable section

/-- `np.roll(arr, shift=s, axis=0)`: `result[i, j] = arr[(i - s) mod r, j]`. -/
def np_roll_rows {r c : ℕ} (arr : Fin r → Fin c → ℝ) (s : ℤ) : Fin r → Fin c → ℝ :=
  fun i j =>
    arr ⟨(((i.val : ℤ) - s) % (r : ℤ)).toNat, by
      have hr : 0 < (r : ℤ) := by exact_mod_cast i.pos
      have h1 : 0 ≤ ((i.val : ℤ) - s) % (r : ℤ) := Int.emod_nonneg _ (by omega)
      have h2 : ((i.val : ℤ) - s) % (r : ℤ) < (r : ℤ) := Int.emod_lt_of_pos _ hr
      omega⟩ j

/-- `np.roll(arr, shift=s, axis=1)`: `result[i, j] = arr[i, (j - s) mod c]`. -/
def np_roll_cols {r c : ℕ} (arr : Fin r → Fin c → ℝ) (s : ℤ) : Fin r → Fin c → ℝ :=
  fun i j =>
    arr i ⟨(((j.val : ℤ) - s) % (c : ℤ)).toNat, by
      have hc : 0 < (c : ℤ) := by exact_mod_cast j.pos
      have h1 : 0 ≤ ((j.val : ℤ) - s) % (c : ℤ) := Int.emod_nonneg _ (by omega)
      have h2 : ((j.val : ℤ) - s) % (c : ℤ) < (c : ℤ) := Int.emod_lt_of_pos _ hc
      omega⟩

/-- `one_energy_vec(arr)` (lines 197-224): per-cell reduced energy.  The four
angle-difference arrays are `ang_ixp = arr - np.roll(arr, -1, 0)`,
`ang_ixm = arr - np.roll(arr, 1, 0)`, `ang_iyp = arr - np.roll(arr, -1, 1)`,
`ang_iym = arr - np.roll(arr, 1, 1)`, and the cell energy adds the four
contributions `0.5*(1.0 - 3.0*cos(ang)**2)`. -/
def one_energy_vec {r c : ℕ} (arr : Fin r → Fin c → ℝ) : Fin r → Fin c → ℝ :=
  fun i j =>
    0.5 * (1.0 - 3.0 * Real.cos (arr i j - np_roll_rows arr (-1) i j) ^ 2) +
    0.5 * (1.0 - 3.0 * Real.cos (arr i j - np_roll_rows arr 1 i j) ^ 2) +
    0.5 * (1.0 - 3.0 * Real.cos (arr i j - np_roll_cols arr (-1) i j) ^ 2) +
    0.5 * (1.0 - 3.0 * Real.cos (arr i j - np_roll_cols arr 1 i j) ^ 2)

/-- `all_energy(arr) = np.sum(one_energy_vec(arr))` (lines 226-238). -/
def all_energy {r c : ℕ} (arr : Fin r → Fin c → ℝ) : ℝ :=
  ∑ i, ∑ j, one_energy_vec arr i j

end

/-! ## Claim C5: the energy model -/

noncomputable section

/-- The pairwise reduced energy between two orientations, as the specification
states it: `0.5 * (1 − 3·cos²(θ1 − θ2))`. -/
def pair_energy (t1 t2 : ℝ) : ℝ := 0.5 * (1 - 3 * Real.cos (t1 - t2) ^ 2)

end

/-! ## Claim C2: partition-invariance of the global energy fails

The worker computes its per-step energy as `all_energy(local_lattice[1:-1,:])`
(line 507): the energy of the interior block alone, with `np.roll` wrapping
around inside the interior.  The ghost rows of `local_lattice` are filled by
the halo exchange but never read by any energy computation, so the per-block
energies use the block's own periodic wrap instead of the neighbouring rows.

Counterexample: the 2×2 lattice with row 0 ≡ 0 and row 1 ≡ π/2, split between
two workers with one interior row each and correctly populated ghost rows. -/

noncomputable section

/-- The interior view `local_lattice[1:-1, :]` of a worker's block
(lines 506-508, 522). -/
def interiorOf {rows c : ℕ} (block : Fin (rows + 2) → Fin c → ℝ) :
    Fin rows → Fin c → ℝ :=
  fun i j => block ⟨i.val + 1, by omega⟩ j

/-- The full 2×2 lattice: row 0 has all angles 0, row 1 all angles π/2. -/
def latC2 : Fin 2 → Fin 2 → ℝ :=
  fun i _ => if i.val = 0 then 0 else Real.pi / 2

/-- Worker 1's local block (1 interior row + 2 ghost rows): its interior is
row 0 of the lattice (angle 0), and both ghost rows are the adjacent block's
boundary row (angle π/2), as the periodic halo exchange populates them. -/
def blockC2_1 : Fin 3 → Fin 2 → ℝ :=
  fun i _ => if i.val = 1 then 0 else Real.pi / 2

/-- Worker 2's local block: interior is row 1 of the lattice (angle π/2),
ghost rows hold the adjacent block's boundary row (angle 0). -/
def blockC2_2 : Fin 3 → Fin 2 → ℝ :=
  fun i _ => if i.val = 1 then Real.pi / 2 else 0

end

/-! ## Order parameter calculator (source lines 242-269) -/

noncomputable section

/-- `lab = np.vstack((np.cos(arr), np.sin(arr), np.zeros_like(arr)))
.reshape(3, rows, nmax)` (line 260): the per-cell 3D unit director field. -/
def lab {r c : ℕ} (arr : Fin r → Fin c → ℝ) : Fin 3 → Fin r → Fin c → ℝ :=
  fun a i j =>
    if a.val = 0 then Real.cos (arr i j)
    else if a.val = 1 then Real.sin (arr i j)
    else 0

/-- `Qab = (np.einsum('aij,bij->ab', lab, lab) * 3 - (rows*nmax)*np.eye(3))
/ (2*rows*nmax)` (lines 255-266). -/
def Qab {r c : ℕ} (arr : Fin r → Fin c → ℝ) : Matrix (Fin 3) (Fin 3) ℝ :=
  Matrix.of fun a b =>
    ((∑ i, ∑ j, lab arr a i j * lab arr b i j) * 3 -
        ((r * c : ℕ) : ℝ) * (if a = b then 1 else 0)) /
      (2 * ((r * c : ℕ) : ℝ))

/-- `get_order(arr, rows, nmax)` (lines 242-269): `Qab` is real symmetric, its
eigenvalues are real, and the function returns `eigenvalues.max()`. -/
def get_order {r c : ℕ} (arr : Fin r → Fin c → ℝ) : ℝ :=
  Finset.univ.sup' Finset.univ_nonempty
    ((show (Qab arr).IsHermitian by
      show (Qab arr).conjTranspose = Qab arr
      ext a b
      rw [Matrix.conjTranspose_apply, star_trivial]
      show Matrix.of _ b a = Matrix.of _ a b
      simp only [Matrix.of_apply]
      have hsum : (∑ i, ∑ j, lab arr b i j * lab arr a i j) =
          ∑ i, ∑ j, lab arr a i j * lab arr b i j :=
        Finset.sum_congr rfl fun i _ =>
          Finset.sum_congr rfl fun j _ => mul_comm _ _
      rw [hsum]
      by_cases hab : a = b
      · rw [hab]
      · rw [if_neg hab, if_neg fun h => hab h.symm]).eigenvalues)

/-! ## Checkerboard Metropolis update (source lines 272-342)

The two pre-drawn random fields (`aran`, the Gaussian angle perturbations, and
`boltz_random`, the uniform draws for the Metropolis test — lines 329-330) are
passed explicitly instead of being read from the global `numpy` generator. -/

/-- The array after `arr[mask] += aran[mask]` (line 289): every masked cell
is perturbed at once, the others are untouched. -/
def perturbed {r c : ℕ} (arr aran : Fin r → Fin c → ℝ)
    (mask : Fin r → Fin c → Bool) : Fin r → Fin c → ℝ :=
  fun i j => if mask i j then arr i j + aran i j else arr i j

/-- The per-cell acceptance condition `accept_mask = (en1 <= en0) |
(boltz >= boltz_random[mask])` (lines 287-294), where
`en0 = one_energy_vec(arr)` is the cell energy before the masked perturbation,
`en1 = one_energy_vec(arr)` after it, and
`boltz = np.exp(-(en1 - en0)/Ts)` (line 293). -/
def acceptCond {r c : ℕ} (arr aran boltz_random : Fin r → Fin c → ℝ)
    (Ts : ℝ) (mask : Fin r → Fin c → Bool) (i : Fin r) (j : Fin c) : Prop :=
  one_energy_vec (perturbed arr aran mask) i j ≤ one_energy_vec arr i j ∨
    Real.exp (-(one_energy_vec (perturbed arr aran mask) i j -
        one_energy_vec arr i j) / Ts) ≥ boltz_random i j

instance acceptCond.decidable {r c : ℕ}
    (arr aran boltz_random : Fin r → Fin c → ℝ) (Ts : ℝ)
    (mask : Fin r → Fin c → Bool) (i : Fin r) (j : Fin c) :
    Decidable (acceptCond arr aran boltz_random Ts mask i j) := by
  unfold acceptCond
  infer_instance

/-- `mc_vec_diagonals(arr, aran, boltz_random, Ts, mask)` (lines 272-303).
Returns the updated array together with `accept = np.sum(accept_mask)`
(line 301).  The update applies the perturbation to all masked cells
(line 289) and then subtracts it back from the masked cells that fail the
acceptance test (`final_cells[~accept_mask] -= aran[mask][~accept_mask]`,
lines 296-299). -/
def mc_vec_diagonals {r c : ℕ} (arr aran boltz_random : Fin r → Fin c → ℝ)
    (Ts : ℝ) (mask : Fin r → Fin c → Bool) :
    (Fin r → Fin c → ℝ) × ℕ :=
  (fun i j =>
    if mask i j ∧ ¬ acceptCond arr aran boltz_random Ts mask i j
    then perturbed arr aran mask i j - aran i j
    else perturbed arr aran mask i j,
  (Finset.univ.filter
    (fun p : Fin r × Fin c =>
      mask p.1 p.2 ∧ acceptCond arr aran boltz_random Ts mask p.1 p.2)).card)

/-- The "white" checkerboard mask `(i + j) % 2 == 0` (lines 332-334). -/
def diag_mask_1 (r c : ℕ) : Fin r → Fin c → Bool :=
  fun i j => (i.val + j.val) % 2 == 0

/-- The "black" checkerboard mask, the complement (line 336). -/
def diag_mask_2 (r c : ℕ) : Fin r → Fin c → Bool :=
  fun i j => ! diag_mask_1 r c i j

/-- `MC_step(arr, rows, nmax, Ts)` (lines 304-342): the two checkerboard
phases in sequence; returns the updated block and `accept/(rows*nmax)`. -/
def MC_step {r c : ℕ} (arr aran boltz_random : Fin r → Fin c → ℝ) (Ts : ℝ) :
    (Fin r → Fin c → ℝ) × ℝ :=
  let s1 := mc_vec_diagonals arr aran boltz_random Ts (diag_mask_1 r c)
  let s2 := mc_vec_diagonals s1.1 aran boltz_random Ts (diag_mask_2 r c)
  (s2.1, ((s1.2 + s2.2 : ℕ) : ℝ) / ((r : ℝ) * (c : ℝ)))

/-! ## The worker loop (source lines 484-527) -/

/-- One iteration of the worker loop (lines 504-515).  The sweep
(`MC_step(local_lattice[1:-1,:], ...)`, line 506) and the two measurements
(lines 507-508) act on the interior view only; the halo exchange (lines
511-515) then overwrites the two ghost rows with the rows received from the
neighbours, modelled as explicit inputs `recvTop` and `recvBottom`.  Returns
the new block and the statistics triple (ratio, energy, order) recorded for
this step. -/
def workerStep {rows c : ℕ} (block : Fin (rows + 2) → Fin c → ℝ)
    (aran boltz_random : Fin rows → Fin c → ℝ) (Ts : ℝ)
    (recvTop recvBottom : Fin c → ℝ) :
    (Fin (rows + 2) → Fin c → ℝ) × (ℝ × ℝ × ℝ) :=
  let sw := MC_step (interiorOf block) aran boltz_random Ts
  let newInterior := sw.1
  let stats := (sw.2, all_energy newInterior, get_order newInterior)
  let newBlock : Fin (rows + 2) → Fin c → ℝ := fun i j =>
    if h0 : i.val = 0 then recvTop j
    else if hN : i.val = rows + 1 then recvBottom j
    else newInterior ⟨i.val - 1, by omega⟩ j
  (newBlock, stats)

/-- The worker loop state after `t` iterations, given the streams of random
fields and of received halo rows. -/
def workerRun {rows c : ℕ} (block0 : Fin (rows + 2) → Fin c → ℝ)
    (aranS boltzS : ℕ → Fin rows → Fin c → ℝ) (Ts : ℝ)
    (recvTopS recvBottomS : ℕ → Fin c → ℝ) : ℕ → Fin (rows + 2) → Fin c → ℝ
  | 0 => block0
  | (t + 1) =>
      (workerStep (workerRun block0 aranS boltzS Ts recvTopS recvBottomS t)
        (aranS t) (boltzS t) Ts (recvTopS t) (recvBottomS t)).1

/-- The statistics triple `(ratio, energy, order)` recorded at step `t`
(0-based) of the worker loop. -/
def workerStats {rows c : ℕ} (block0 : Fin (rows + 2) → Fin c → ℝ)
    (aranS boltzS : ℕ → Fin rows → Fin c → ℝ) (Ts : ℝ)
    (recvTopS recvBottomS : ℕ → Fin c → ℝ) (t : ℕ) : ℝ × ℝ × ℝ :=
  (workerStep (workerRun block0 aranS boltzS Ts recvTopS recvBottomS t)
    (aranS t) (boltzS t) Ts (recvTopS t) (recvBottomS t)).2

end

/-! ## The entries of `Qab` -/

noncomputable section

/-- The `(cos, cos)` einsum entry `∑ᵢⱼ cos θᵢⱼ · cos θᵢⱼ`. -/
def Pcc {r c : ℕ} (arr : Fin r → Fin c → ℝ) : ℝ :=
  ∑ i, ∑ j, Real.cos (arr i j) * Real.cos (arr i j)

/-- The `(sin, sin)` einsum entry `∑ᵢⱼ sin θᵢⱼ · sin θᵢⱼ`. -/
def Pss {r c : ℕ} (arr : Fin r → Fin c → ℝ) : ℝ :=
  ∑ i, ∑ j, Real.sin (arr i j) * Real.sin (arr i j)

/-- The mixed einsum entry `∑ᵢⱼ cos θᵢⱼ · sin θᵢⱼ`. -/
def Pcs {r c : ℕ} (arr : Fin r → Fin c → ℝ) : ℝ :=
  ∑ i, ∑ j, Real.cos (arr i j) * Real.sin (arr i j)

end

theorem workerTrace_succ (n : ℕ) :
    workerTrace (n + 1) = workerTrace n ++ stepTrace n := by
  simp [workerTrace, List.range_succ]

theorem step_lt_of_mem_workerTrace {e : WEvent} {n : ℕ} (h : e ∈ workerTrace n) :
    e.step < n := by
  induction n with
  | zero => simp [workerTrace] at h
  | succ m ih =>
    rw [workerTrace_succ] at h
    rcases List.mem_append.mp h with h | h
    · exact Nat.lt_succ_of_lt (ih h)
    · simp only [stepTrace, List.mem_cons, List.not_mem_nil, or_false] at h
      rcases h with h | h | h | h <;> subst h <;> simp [WEvent.step]

theorem mem_workerTrace_of_lt {t n : ℕ} (ht : t < n) {e : WEvent}
    (he : e ∈ stepTrace t) : e ∈ workerTrace n :=
  List.mem_flatMap.mpr ⟨t, List.mem_range.mpr ht, he⟩

/-- Position of each of step `t`'s events in the worker trace. -/
theorem workerTrace_indexOf {n t : ℕ} (ht : t < n) :
    (workerTrace n).indexOf (WEvent.sweep t) = 4 * t ∧
    (workerTrace n).indexOf (WEvent.measureEnergy t) = 4 * t + 1 ∧
    (workerTrace n).indexOf (WEvent.measureOrder t) = 4 * t + 2 ∧
    (workerTrace n).indexOf (WEvent.exchange t) = 4 * t + 3 := by
  induction n with
  | zero => omega
  | succ m ih =>
    rw [workerTrace_succ]
    rcases Nat.lt_succ_iff_lt_or_eq.mp ht with h | h
    · obtain ⟨i1, i2, i3, i4⟩ := ih h
      refine ⟨?_, ?_, ?_, ?_⟩ <;>
        rw [List.indexOf_append_of_mem (mem_workerTrace_of_lt h (by simp [stepTrace]))] <;>
        assumption
    · subst h
      have hlen : (workerTrace t).length = 4 * t := by
        clear ht ih
        induction t with
        | zero => rfl
        | succ m ih => rw [workerTrace_succ]; simp [ih, stepTrace]; omega
      have hnot : ∀ e : WEvent, e.step = t → e ∉ workerTrace t := by
        intro e hstep hmem
        exact absurd (step_lt_of_mem_workerTrace hmem) (by omega)
      refine ⟨?_, ?_, ?_, ?_⟩
      · rw [List.indexOf_append_of_not_mem (hnot (WEvent.sweep t) rfl)]
        simp [stepTrace, hlen]
      · rw [List.indexOf_append_of_not_mem (hnot (WEvent.measureEnergy t) rfl)]
        simp [stepTrace, hlen, List.indexOf_cons_ne]
      · rw [List.indexOf_append_of_not_mem (hnot (WEvent.measureOrder t) rfl)]
        simp [stepTrace, hlen, List.indexOf_cons_ne]
      · rw [List.indexOf_append_of_not_mem (hnot (WEvent.exchange t) rfl)]
        simp [stepTrace, hlen, List.indexOf_cons_ne]

/-! ## Basic facts about the partitioner -/

theorem offsetOf_succ (N P : ℕ) {i : ℕ} (hi : 1 ≤ i) :
    offsetOf N P (i + 1) = offsetOf N P i + rowsOf N P i := by
  match i, hi with
  | (k + 1), _ => rfl

theorem offsetOf_eq_sum (N P i : ℕ) :
    offsetOf N P i = ∑ k in Finset.Ico 1 i, rowsOf N P k := by
  induction i with
  | zero => simp [offsetOf]
  | succ m ih =>
    rcases Nat.eq_zero_or_pos m with hm | hm
    · subst hm; simp [offsetOf]
    · rw [offsetOf_succ N P hm, ih, Finset.sum_Ico_succ_top hm]

theorem offsetOf_total (N P : ℕ) (hP : 1 ≤ P) :
    offsetOf N P (P + 1) = N := by
  rw [offsetOf_eq_sum]
  have hmod : N % P < P := Nat.mod_lt _ hP
  have hsplit : ∀ k : ℕ, rowsOf N P k = N / P + if k ≤ N % P then 1 else 0 :=
    fun k => rfl
  calc ∑ k in Finset.Ico 1 (P + 1), rowsOf N P k
      = ∑ k in Finset.Ico 1 (P + 1), (N / P + if k ≤ N % P then 1 else 0) := by
        exact Finset.sum_congr rfl fun k _ => hsplit k
    _ = P * (N / P) +
        ((Finset.Ico 1 (P + 1)).filter (fun k => k ≤ N % P)).card := by
        rw [Finset.sum_add_distrib, Finset.sum_const, Nat.card_Ico,
          Finset.card_filter, smul_eq_mul]
        norm_num
    _ = P * (N / P) + N % P := by
        congr 1
        have : (Finset.Ico 1 (P + 1)).filter (fun k => k ≤ N % P) =
            Finset.Ico 1 (N % P + 1) := by
          ext k
          simp only [Finset.mem_filter, Finset.mem_Ico]
          omega
        rw [this, Nat.card_Ico]
        omega
    _ = N := Nat.div_add_mod N P

theorem offsetOf_mono (N P : ℕ) {i j : ℕ} (_hi : 1 ≤ i) (hij : i ≤ j) :
    offsetOf N P i ≤ offsetOf N P j := by
  rw [offsetOf_eq_sum, offsetOf_eq_sum]
  exact Finset.sum_le_sum_of_subset (Finset.Ico_subset_Ico le_rfl hij)

/-- Every global row index below the running offset `offsetOf N P (m+1)` is
covered by the block of some worker in `[1, m]`. -/
theorem exists_block_of_lt_offset (N P : ℕ) :
    ∀ m r, r < offsetOf N P (m + 1) →
      ∃ i, 1 ≤ i ∧ i ≤ m ∧ offsetOf N P i ≤ r ∧
        r < offsetOf N P i + rowsOf N P i := by
  intro m
  induction m with
  | zero => intro r hr; simp [offsetOf] at hr
  | succ k ih =>
    intro r hr
    by_cases hcase : r < offsetOf N P (k + 1)
    · obtain ⟨i, h1, h2, h3, h4⟩ := ih r hcase
      exact ⟨i, h1, by omega, h3, h4⟩
    · refine ⟨k + 1, by omega, le_rfl, by omega, ?_⟩
      rw [← offsetOf_succ N P (by omega)]
      exact hr

/-! ## Claim C1: ordering of sweep, halo exchange and measurement -/

/-- C1, counterexample: in the worker loop the halo exchange of step 0 is NOT
executed before the energy measurement of step 0 — the loop body (lines
504-515) measures first (line 507) and exchanges last (lines 511-515), so the
claimed ordering (sweep, then exchange, then measure) is false on the code. -/
theorem C1_exchange_not_before_measure :
    ¬ (workerTrace 1).indexOf (WEvent.exchange 0) <
      (workerTrace 1).indexOf (WEvent.measureEnergy 0) := by
  decide

/-- C1, amended: for every worker-loop run of `nsteps` steps and every step
`t < nsteps`, the local sweep of step `t` is executed before the per-step
energy and order measurements of step `t`, and both measurements are executed
before the halo exchange of step `t` (the ordering is sweep, then measure,
then exchange). -/
theorem C1_sweep_then_measure_then_exchange (nsteps t : ℕ) (ht : t < nsteps) :
    (workerTrace nsteps).indexOf (WEvent.sweep t) <
      (workerTrace nsteps).indexOf (WEvent.measureEnergy t) ∧
    (workerTrace nsteps).indexOf (WEvent.measureEnergy t) <
      (workerTrace nsteps).indexOf (WEvent.exchange t) ∧
    (workerTrace nsteps).indexOf (WEvent.measureOrder t) <
      (workerTrace nsteps).indexOf (WEvent.exchange t) := by
  obtain ⟨h1, h2, h3, h4⟩ := workerTrace_indexOf ht
  omega

/-- C1 witness: the amended ordering at `nsteps = 1`, `t = 0`. -/
theorem C1_sweep_then_measure_then_exchange_witness :
    0 < 1 ∧
    ((workerTrace 1).indexOf (WEvent.sweep 0) <
        (workerTrace 1).indexOf (WEvent.measureEnergy 0) ∧
      (workerTrace 1).indexOf (WEvent.measureEnergy 0) <
        (workerTrace 1).indexOf (WEvent.exchange 0) ∧
      (workerTrace 1).indexOf (WEvent.measureOrder 0) <
        (workerTrace 1).indexOf (WEvent.exchange 0)) :=
  ⟨by decide, C1_sweep_then_measure_then_exchange 1 0 (by decide)⟩

/-! ## Claim C3: no temperature validation before the sweeps -/

/-- C3, counterexample: a run configured with temperature exactly 0 (argument
count 5, one worker) is NOT aborted before the sweeps — the program checks
only the argument count and the worker-count bounds, never the temperature. -/
theorem C3_zero_temperature_not_rejected :
    (0 : ℝ) ≤ 0 ∧ run_aborts_before_sweep 5 1 0 = false :=
  ⟨le_refl 0, rfl⟩

/-- C3, amended: the program performs no temperature validation.  Whether a
run is aborted before any sweep depends only on the argument count and the
worker count; in particular a run with temperature ≤ 0 (for any temperature
whatsoever) proceeds to the sweeps whenever those two checks pass, and the
Boltzmann factors are then computed with that temperature. -/
theorem C3_abort_independent_of_temperature (temp : ℝ) (argc numworkers : ℕ) :
    run_aborts_before_sweep argc numworkers temp = false ↔
      (argc = 5 ∧ MINWORKER ≤ numworkers ∧ numworkers ≤ MAXWORKER) := by
  simp only [run_aborts_before_sweep, MINWORKER, MAXWORKER, Bool.or_eq_false_iff,
    bne_eq_false_iff_eq, decide_eq_false_iff_not, not_lt]
  omega

/-! ## Claim C4: the summary line prints `order[nsteps-1]` -/

/-- C4, counterexample: the order value placed in the summary line is not in
general the entry at index `nsteps` of the order series; for the series
`i ↦ i` with `nsteps = 1` the code prints `order[0] = 0`, not `order[1] = 1`
(line 474 of the mpi program, line 407 of the numpy program: `order[nsteps-1]`). -/
theorem C4_reported_order_not_final_entry :
    reported_order (fun i => (i : ℝ)) 1 ≠ ((1 : ℕ) : ℝ) := by
  norm_num [reported_order]

/-- C4, amended: for every completed run of `nsteps ≥ 1` steps, the
order-parameter value printed in the reported summary line equals the entry at
index `nsteps - 1` of the order-parameter series — one step before the final
entry. -/
theorem C4_reported_order_is_penultimate (order : ℕ → ℝ) (nsteps : ℕ)
    (h : 1 ≤ nsteps) :
    ∃ k, k + 1 = nsteps ∧ reported_order order nsteps = order k :=
  ⟨nsteps - 1, by omega, rfl⟩

/-- C4 witness: the amended statement at the series `i ↦ i`, `nsteps = 2`. -/
theorem C4_reported_order_is_penultimate_witness :
    1 ≤ 2 ∧ ∃ k, k + 1 = 2 ∧ reported_order (fun i => (i : ℝ)) 2 = ((k : ℕ) : ℝ) :=
  ⟨by decide, C4_reported_order_is_penultimate (fun i => (i : ℝ)) 2 (by decide)⟩

/-! ## Claim C7: round-trip of the row partition -/

/-- C7: for every lattice of `N` rows and every worker count `P` with
`1 ≤ P ≤ N`: worker `i` is assigned `N / P` rows plus one extra row when
`i ≤ N % P` (so blocks differ by at most one row); row offsets accumulate the
previously assigned counts starting at 0; the blocks exactly exhaust the `N`
rows; and every global row index lies in exactly one worker's block (no row
duplicated, no gap), so reassembling the blocks at their row offsets
reproduces the original lattice. -/
theorem C7_partition_roundtrip (N P : ℕ) (h1 : 1 ≤ P) (_h2 : P ≤ N) :
    (∀ i, rowsOf N P i = N / P + if i ≤ N % P then 1 else 0) ∧
    (∀ i j, rowsOf N P i ≤ rowsOf N P j + 1) ∧
    (∀ i, offsetOf N P i = ∑ k in Finset.Ico 1 i, rowsOf N P k) ∧
    offsetOf N P (P + 1) = N ∧
    (∀ r, r < N →
      ∃! i, 1 ≤ i ∧ i ≤ P ∧ offsetOf N P i ≤ r ∧
        r < offsetOf N P i + rowsOf N P i) := by
  refine ⟨fun i => rfl, ?_, fun i => offsetOf_eq_sum N P i, offsetOf_total N P h1, ?_⟩
  · intro i j
    unfold rowsOf
    split_ifs <;> omega
  · intro r hr
    obtain ⟨i, hi1, hi2, hi3, hi4⟩ :=
      exists_block_of_lt_offset N P P r (by rw [offsetOf_total N P h1]; exact hr)
    refine ⟨i, ⟨hi1, hi2, hi3, hi4⟩, ?_⟩
    rintro j ⟨hj1, hj2, hj3, hj4⟩
    by_contra hne
    rcases Nat.lt_or_ge j i with hlt | hge
    · have : offsetOf N P (j + 1) ≤ offsetOf N P i := offsetOf_mono N P (by omega) (by omega)
      rw [offsetOf_succ N P hj1] at this
      omega
    · have hlt' : i < j := by omega
      have : offsetOf N P (i + 1) ≤ offsetOf N P j := offsetOf_mono N P (by omega) (by omega)
      rw [offsetOf_succ N P hi1] at this
      omega

/-- C7 witness: for `N = 5`, `P = 2` the two blocks exhaust the five rows. -/
theorem C7_partition_roundtrip_witness :
    1 ≤ 2 ∧ 2 ≤ 5 ∧ offsetOf 5 2 (2 + 1) = 5 :=
  ⟨by decide, by decide, (C7_partition_roundtrip 5 2 (by decide) (by decide)).2.2.2.1⟩

/-! ## Claim C8: periodic ring neighbour assignment -/

/-- C8: for every worker count `P` with `1 ≤ P ≤ MAXWORKER`, the neighbour
assignment forms a periodic ring: worker 1's `above` is worker `P`, worker
`P`'s `below` is worker 1, every interior worker `i` (with `1 < i < P`) has
`above = i - 1` and `below = i + 1`, and for `P = 1` the single worker is its
own `above` and `below` neighbour (self-loop). -/
theorem C8_ring_neighbor_assignment (P : ℕ) (h1 : 1 ≤ P) (_h2 : P ≤ MAXWORKER) :
    aboveOf P 1 = P ∧ belowOf P P = 1 ∧
    (∀ i, 1 < i → i < P → aboveOf P i = i - 1 ∧ belowOf P i = i + 1) ∧
    (P = 1 → aboveOf P 1 = 1 ∧ belowOf P 1 = 1) := by
  refine ⟨by simp [aboveOf], ?_, ?_, ?_⟩
  · by_cases hP : P = 1
    · subst hP; simp [belowOf]
    · simp [belowOf, hP]
  · intro i hi1 hiP
    have hne1 : i ≠ 1 := by omega
    have hneP : i ≠ P := by omega
    simp [aboveOf, belowOf, hne1, hneP]
  · intro hP
    subst hP
    simp [aboveOf, belowOf]

/-- C8 witness: the ring assignment at `P = 3`. -/
theorem C8_ring_neighbor_assignment_witness :
    1 ≤ 3 ∧ 3 ≤ MAXWORKER ∧ aboveOf 3 1 = 3 :=
  ⟨by decide, by decide, (C8_ring_neighbor_assignment 3 (by decide) (by decide)).1⟩

/-! ## Resolving the `np.roll` indices to periodic neighbours -/

theorem natCast_emod_toNat (a r : ℕ) : (((a : ℤ)) % (r : ℤ)).toNat = a % r := by
  rw [← Int.natCast_mod, Int.toNat_natCast]

theorem int_add_one_emod_toNat (a r : ℕ) :
    (((a : ℤ) - (-1)) % (r : ℤ)).toNat = (a + 1) % r := by
  have h : ((a : ℤ) - (-1)) = ((a + 1 : ℕ) : ℤ) := by push_cast; ring
  rw [h, natCast_emod_toNat]

theorem int_sub_one_emod_toNat (a r : ℕ) (hr : 1 ≤ r) :
    (((a : ℤ) - 1) % (r : ℤ)).toNat = (a + (r - 1)) % r := by
  have e : ((a + (r - 1) : ℕ) : ℤ) = (a : ℤ) - 1 + (r : ℤ) * 1 := by
    push_cast [Nat.cast_sub hr]
    ring
  have h1 : ((a : ℤ) - 1) % (r : ℤ) = ((a + (r - 1) : ℕ) : ℤ) % (r : ℤ) := by
    rw [e, Int.add_mul_emod_self_left]
  rw [h1, natCast_emod_toNat]

theorem np_roll_rows_neg_one {r c : ℕ} (arr : Fin r → Fin c → ℝ) (i : Fin r)
    (j : Fin c) :
    np_roll_rows arr (-1) i j = arr ⟨(i.val + 1) % r, Nat.mod_lt _ i.pos⟩ j :=
  congrFun (congrArg arr (Fin.ext (int_add_one_emod_toNat i.val r))) j

theorem np_roll_rows_one {r c : ℕ} (arr : Fin r → Fin c → ℝ) (i : Fin r)
    (j : Fin c) :
    np_roll_rows arr 1 i j = arr ⟨(i.val + (r - 1)) % r, Nat.mod_lt _ i.pos⟩ j :=
  congrFun (congrArg arr (Fin.ext (int_sub_one_emod_toNat i.val r i.pos))) j

theorem np_roll_cols_neg_one {r c : ℕ} (arr : Fin r → Fin c → ℝ) (i : Fin r)
    (j : Fin c) :
    np_roll_cols arr (-1) i j = arr i ⟨(j.val + 1) % c, Nat.mod_lt _ j.pos⟩ :=
  congrArg (arr i) (Fin.ext (int_add_one_emod_toNat j.val c))

theorem np_roll_cols_one {r c : ℕ} (arr : Fin r → Fin c → ℝ) (i : Fin r)
    (j : Fin c) :
    np_roll_cols arr 1 i j = arr i ⟨(j.val + (c - 1)) % c, Nat.mod_lt _ j.pos⟩ :=
  congrArg (arr i) (Fin.ext (int_sub_one_emod_toNat j.val c j.pos))

/-- C5: for every lattice block and every cell, `one_energy_vec` assigns the
cell the sum of the four pairwise terms `0.5 * (1 − 3·cos²(θ1 − θ2))` with its
four periodic neighbours (row below `(i+1) mod r`, row above `(i-1) mod r`,
column right `(j+1) mod c`, column left `(j-1) mod c`), for arbitrary
real-valued angles; and `all_energy` of the block is the sum of this per-cell
field over all cells. -/
theorem C5_local_energy_four_periodic_neighbors {r c : ℕ}
    (arr : Fin r → Fin c → ℝ) (i : Fin r) (j : Fin c) :
    one_energy_vec arr i j =
      pair_energy (arr i j) (arr ⟨(i.val + 1) % r, Nat.mod_lt _ i.pos⟩ j) +
      pair_energy (arr i j) (arr ⟨(i.val + (r - 1)) % r, Nat.mod_lt _ i.pos⟩ j) +
      pair_energy (arr i j) (arr i ⟨(j.val + 1) % c, Nat.mod_lt _ j.pos⟩) +
      pair_energy (arr i j) (arr i ⟨(j.val + (c - 1)) % c, Nat.mod_lt _ j.pos⟩) ∧
    all_energy arr = ∑ a, ∑ b, one_energy_vec arr a b := by
  constructor
  · rw [one_energy_vec, np_roll_rows_neg_one, np_roll_rows_one,
      np_roll_cols_neg_one, np_roll_cols_one]
    unfold pair_energy
    norm_num
  · rfl

/-- Constant blocks have cell energy `-1` per neighbour pair, `-4` per cell. -/
theorem all_energy_const (r c : ℕ) (a : ℝ) :
    all_energy (fun (_ : Fin r) (_ : Fin c) => a) = (r : ℝ) * c * (-4) := by
  have hcell : ∀ (i : Fin r) (j : Fin c),
      one_energy_vec (fun (_ : Fin r) (_ : Fin c) => a) i j = -4 := by
    intro i j
    show 0.5 * (1.0 - 3.0 * Real.cos (a - a) ^ 2) +
        0.5 * (1.0 - 3.0 * Real.cos (a - a) ^ 2) +
        0.5 * (1.0 - 3.0 * Real.cos (a - a) ^ 2) +
        0.5 * (1.0 - 3.0 * Real.cos (a - a) ^ 2) = -4
    rw [sub_self, Real.cos_zero]
    norm_num
  unfold all_energy
  rw [Finset.sum_congr rfl fun i _ => Finset.sum_congr rfl fun j _ => hcell i j]
  simp [Finset.sum_const, mul_comm]
  ring

/-- The full-lattice energy of the counterexample lattice is `-4`. -/
theorem all_energy_latC2 : all_energy latC2 = -4 := by
  simp only [all_energy, Fin.sum_univ_two, one_energy_vec,
    np_roll_rows_neg_one, np_roll_rows_one, np_roll_cols_neg_one,
    np_roll_cols_one]
  norm_num [latC2, zero_sub, sub_zero, sub_self, Real.cos_neg, Real.cos_zero,
    Real.cos_pi_div_two]

/-- C2, violation at a concrete input: the total energy of the full 2×2
lattice (`-4`) does not equal the sum of the per-block energies the workers
compute (`all_energy` of each one-row interior, `-8 + -8 = -16`), even though
each block's ghost rows are correctly populated with the adjacent block's
boundary rows — the code never reads the ghost rows when computing energy
(line 507 slices them away), wrapping periodically inside the interior
instead. -/
theorem C2_partition_energy_not_invariant :
    all_energy latC2 ≠
      all_energy (@interiorOf 1 2 blockC2_1) +
        all_energy (@interiorOf 1 2 blockC2_2) := by
  have h1 : @interiorOf 1 2 blockC2_1 =
      fun (_ : Fin 1) (_ : Fin 2) => (0 : ℝ) := by
    funext i j
    have hi : i.val = 0 := by have := i.isLt; omega
    simp [interiorOf, blockC2_1, hi]
  have h2 : @interiorOf 1 2 blockC2_2 =
      fun (_ : Fin 1) (_ : Fin 2) => (Real.pi / 2) := by
    funext i j
    have hi : i.val = 0 := by have := i.isLt; omega
    simp [interiorOf, blockC2_2, hi]
  rw [all_energy_latC2, h1, h2, all_energy_const, all_energy_const]
  norm_num

/-! ## Claim C6: the Metropolis acceptance rule -/

/-- C6: for every cell processed in a checkerboard phase (every masked cell),
the proposed perturbation is kept exactly when the cell's energy after the
masked perturbation is ≤ its energy before, or when
`exp(-(en1 - en0)/Ts)` is ≥ that cell's pre-drawn uniform value
(`acceptCond`); otherwise the cell's angle is reverted to its
pre-perturbation value; and the phase's accepted count is the number of
masked cells satisfying the acceptance condition. -/
theorem C6_metropolis_acceptance_rule {r c : ℕ}
    (arr aran boltz_random : Fin r → Fin c → ℝ) (Ts : ℝ)
    (mask : Fin r → Fin c → Bool) :
    (∀ i j, mask i j = true → acceptCond arr aran boltz_random Ts mask i j →
      (mc_vec_diagonals arr aran boltz_random Ts mask).1 i j =
        arr i j + aran i j) ∧
    (∀ i j, mask i j = true → ¬ acceptCond arr aran boltz_random Ts mask i j →
      (mc_vec_diagonals arr aran boltz_random Ts mask).1 i j = arr i j) ∧
    (∀ i j, mask i j = false →
      (mc_vec_diagonals arr aran boltz_random Ts mask).1 i j = arr i j) ∧
    (mc_vec_diagonals arr aran boltz_random Ts mask).2 =
      (Finset.univ.filter (fun p : Fin r × Fin c =>
        mask p.1 p.2 = true ∧
          acceptCond arr aran boltz_random Ts mask p.1 p.2)).card := by
  refine ⟨?_, ?_, ?_, rfl⟩
  · intro i j hm hacc
    show (if mask i j = true ∧ ¬ acceptCond arr aran boltz_random Ts mask i j
        then perturbed arr aran mask i j - aran i j
        else perturbed arr aran mask i j) = arr i j + aran i j
    rw [if_neg fun hcon => hcon.2 hacc]
    show (if mask i j = true then arr i j + aran i j else arr i j) =
      arr i j + aran i j
    rw [if_pos hm]
  · intro i j hm hacc
    show (if mask i j = true ∧ ¬ acceptCond arr aran boltz_random Ts mask i j
        then perturbed arr aran mask i j - aran i j
        else perturbed arr aran mask i j) = arr i j
    rw [if_pos ⟨hm, hacc⟩]
    show (if mask i j = true then arr i j + aran i j else arr i j) - aran i j =
      arr i j
    rw [if_pos hm]
    ring
  · intro i j hm
    show (if mask i j = true ∧ ¬ acceptCond arr aran boltz_random Ts mask i j
        then perturbed arr aran mask i j - aran i j
        else perturbed arr aran mask i j) = arr i j
    rw [if_neg fun hcon => by rw [hm] at hcon; exact Bool.false_ne_true hcon.1]
    show (if mask i j = true then arr i j + aran i j else arr i j) = arr i j
    rw [if_neg (by rw [hm]; exact Bool.false_ne_true)]

/-- C6 witness: on a 1×1 block with zero perturbation the masked cell is
accepted (its energy is unchanged) and ends at `arr + aran`. -/
theorem C6_metropolis_acceptance_rule_witness :
    ((fun (_ : Fin 1) (_ : Fin 1) => true) 0 0 = true) ∧
    (mc_vec_diagonals (fun (_ : Fin 1) (_ : Fin 1) => (0 : ℝ))
        (fun _ _ => 0) (fun _ _ => 2) 1 (fun _ _ => true)).1 0 0 =
      (0 : ℝ) + 0 :=
  ⟨rfl,
    (C6_metropolis_acceptance_rule (fun (_ : Fin 1) (_ : Fin 1) => (0 : ℝ))
      (fun _ _ => 0) (fun _ _ => 2) 1 (fun _ _ => true)).1 0 0 rfl (by
        unfold acceptCond
        left
        have h : perturbed (fun (_ : Fin 1) (_ : Fin 1) => (0 : ℝ))
            (fun _ _ => 0) (fun _ _ => true) = fun _ _ => (0 : ℝ) := by
          funext i j
          simp [perturbed]
        rw [h])⟩

/-! ## Claim C10: the ghost rows do not influence the worker's results

In the worker loop every computation — sweep, energy, order — acts on the
interior view `local_lattice[1:-1, :]`; the ghost rows are written by the
halo exchange but never read. -/

theorem interiorOf_congr {rows c : ℕ} {b1 b2 : Fin (rows + 2) → Fin c → ℝ}
    (h : ∀ i : Fin (rows + 2), 1 ≤ i.val → i.val ≤ rows → b1 i = b2 i) :
    interiorOf b1 = interiorOf b2 := by
  funext i j
  have hi := i.isLt
  unfold interiorOf
  rw [h ⟨i.val + 1, by omega⟩ (Nat.succ_le_succ (Nat.zero_le _)) hi]

theorem workerStep_congr {rows c : ℕ} {b1 b2 : Fin (rows + 2) → Fin c → ℝ}
    (h : interiorOf b1 = interiorOf b2)
    (aran boltz_random : Fin rows → Fin c → ℝ) (Ts : ℝ)
    (recvTop recvBottom : Fin c → ℝ) :
    workerStep b1 aran boltz_random Ts recvTop recvBottom =
      workerStep b2 aran boltz_random Ts recvTop recvBottom := by
  unfold workerStep
  rw [h]

/-- C10: the worker's per-step statistics triples (acceptance ratio, energy,
order parameter) and the interior rows it returns are functions of the
interior rows only: two runs of the worker loop whose initial states differ
only in the two ghost rows (rows `0` and `rows+1` of the local block) produce
identical statistics series and identical interior rows at every step. -/
theorem C10_ghost_rows_do_not_influence_results {rows c : ℕ}
    (b1 b2 : Fin (rows + 2) → Fin c → ℝ)
    (aranS boltzS : ℕ → Fin rows → Fin c → ℝ) (Ts : ℝ)
    (recvTopS recvBottomS : ℕ → Fin c → ℝ)
    (h : ∀ i : Fin (rows + 2), 1 ≤ i.val → i.val ≤ rows → b1 i = b2 i) :
    (∀ t, workerStats b1 aranS boltzS Ts recvTopS recvBottomS t =
      workerStats b2 aranS boltzS Ts recvTopS recvBottomS t) ∧
    (∀ t, interiorOf (workerRun b1 aranS boltzS Ts recvTopS recvBottomS t) =
      interiorOf (workerRun b2 aranS boltzS Ts recvTopS recvBottomS t)) := by
  have key : ∀ t,
      interiorOf (workerRun b1 aranS boltzS Ts recvTopS recvBottomS t) =
        interiorOf (workerRun b2 aranS boltzS Ts recvTopS recvBottomS t) := by
    intro t
    induction t with
    | zero => exact interiorOf_congr h
    | succ m ih =>
      show interiorOf (workerStep _ _ _ _ _ _).1 =
        interiorOf (workerStep _ _ _ _ _ _).1
      rw [workerStep_congr ih (aranS m) (boltzS m) Ts (recvTopS m)
        (recvBottomS m)]
  refine ⟨fun t => ?_, key⟩
  unfold workerStats
  rw [workerStep_congr (key t) (aranS t) (boltzS t) Ts (recvTopS t)
    (recvBottomS t)]

/-- C10 witness: a 1×1 interior whose two runs differ only in the ghost rows
(value 5 instead of 0) record the same statistics triple at step 0. -/
theorem C10_ghost_rows_do_not_influence_results_witness :
    @workerStats 1 1 (fun i _ => if i.val = 1 then 0 else 5)
        (fun _ _ _ => 0) (fun _ _ _ => 0) 1 (fun _ _ => 0) (fun _ _ => 0) 0 =
      @workerStats 1 1 (fun _ _ => 0)
        (fun _ _ _ => 0) (fun _ _ _ => 0) 1 (fun _ _ => 0) (fun _ _ => 0) 0 :=
  (@C10_ghost_rows_do_not_influence_results 1 1
    (fun i _ => if i.val = 1 then 0 else 5) (fun _ _ => 0)
    (fun _ _ _ => 0) (fun _ _ _ => 0) 1 (fun _ _ => 0) (fun _ _ => 0)
    (by
      intro i h1 h2
      funext j
      have hv : i.val = 1 := by omega
      simp [hv])).1 0

/-! ## Claim C9: spectra of real symmetric matrices

`np.linalg.eig` on the real symmetric matrix `Qab` returns its (real)
eigenvalues; the embedding uses `Matrix.IsHermitian.eigenvalues`.  The two
lemmas below characterise those eigenvalues as the roots of
`det (A - μ • 1)`, which lets both the range bound and the rotational
invariance be transported through the determinant. -/

theorem det_sub_smul_eq_prod_eigenvalues {n : Type*} [Fintype n] [DecidableEq n]
    {A : Matrix n n ℝ} (hA : A.IsHermitian) (μ : ℝ) :
    (A - μ • 1).det = ∏ i, (hA.eigenvalues i - μ) := by
  have hU : (hA.eigenvectorUnitary : Matrix n n ℝ) *
      star (hA.eigenvectorUnitary : Matrix n n ℝ) = 1 :=
    Matrix.mem_unitaryGroup_iff.mp hA.eigenvectorUnitary.2
  have hdiag : A - μ • 1 =
      (hA.eigenvectorUnitary : Matrix n n ℝ) *
        (Matrix.diagonal hA.eigenvalues - μ • 1) *
        star (hA.eigenvectorUnitary : Matrix n n ℝ) := by
    rw [Matrix.mul_sub, Matrix.sub_mul]
    congr 1
    · conv_lhs => rw [hA.spectral_theorem]
      rw [RCLike.ofReal_real_eq_id, Function.id_comp]
    · symm
      rw [Matrix.mul_smul, Matrix.mul_one, Matrix.smul_mul, hU]
  rw [hdiag, Matrix.det_mul, Matrix.det_mul]
  have hdet1 : (hA.eigenvectorUnitary : Matrix n n ℝ).det *
      (star (hA.eigenvectorUnitary : Matrix n n ℝ)).det = 1 := by
    rw [← Matrix.det_mul, hU, Matrix.det_one]
  have hdd : (Matrix.diagonal hA.eigenvalues - μ • 1).det =
      ∏ i, (hA.eigenvalues i - μ) := by
    rw [Matrix.smul_one_eq_diagonal, Matrix.diagonal_sub, Matrix.det_diagonal]
  calc (hA.eigenvectorUnitary : Matrix n n ℝ).det *
        (Matrix.diagonal hA.eigenvalues - μ • 1).det *
        (star (hA.eigenvectorUnitary : Matrix n n ℝ)).det
      = (Matrix.diagonal hA.eigenvalues - μ • 1).det *
          ((hA.eigenvectorUnitary : Matrix n n ℝ).det *
            (star (hA.eigenvectorUnitary : Matrix n n ℝ)).det) := by ring
    _ = ∏ i, (hA.eigenvalues i - μ) := by rw [hdet1, mul_one, hdd]

/-- `μ` appears among the returned eigenvalues iff it is a root of the
characteristic determinant. -/
theorem eigenvalues_mem_iff_det_eq_zero {n : Type*} [Fintype n] [DecidableEq n]
    {A : Matrix n n ℝ} (hA : A.IsHermitian) (μ : ℝ) :
    (∃ i, hA.eigenvalues i = μ) ↔ (A - μ • 1).det = 0 := by
  rw [det_sub_smul_eq_prod_eigenvalues hA μ, Finset.prod_eq_zero_iff]
  constructor
  · rintro ⟨i, hi⟩
    exact ⟨i, Finset.mem_univ i, by rw [hi, sub_self]⟩
  · rintro ⟨i, -, hi⟩
    exact ⟨i, by linarith [sub_eq_zero.mp hi]⟩

theorem Qab_00 {r c : ℕ} (arr : Fin r → Fin c → ℝ) :
    Qab arr 0 0 =
      (Pcc arr * 3 - ((r * c : ℕ) : ℝ)) / (2 * ((r * c : ℕ) : ℝ)) := by
  show ((∑ i, ∑ j, Real.cos (arr i j) * Real.cos (arr i j)) * 3 -
      ((r * c : ℕ) : ℝ) * (if (0 : Fin 3) = 0 then (1 : ℝ) else 0)) /
      (2 * ((r * c : ℕ) : ℝ)) = _
  rw [if_pos rfl, mul_one]
  rfl

theorem Qab_01 {r c : ℕ} (arr : Fin r → Fin c → ℝ) :
    Qab arr 0 1 = Pcs arr * 3 / (2 * ((r * c : ℕ) : ℝ)) := by
  show ((∑ i, ∑ j, Real.cos (arr i j) * Real.sin (arr i j)) * 3 -
      ((r * c : ℕ) : ℝ) * (if (0 : Fin 3) = 1 then (1 : ℝ) else 0)) /
      (2 * ((r * c : ℕ) : ℝ)) = _
  rw [if_neg (by decide), mul_zero, sub_zero]
  rfl

theorem Qab_10 {r c : ℕ} (arr : Fin r → Fin c → ℝ) :
    Qab arr 1 0 = Pcs arr * 3 / (2 * ((r * c : ℕ) : ℝ)) := by
  show ((∑ i, ∑ j, Real.sin (arr i j) * Real.cos (arr i j)) * 3 -
      ((r * c : ℕ) : ℝ) * (if (1 : Fin 3) = 0 then (1 : ℝ) else 0)) /
      (2 * ((r * c : ℕ) : ℝ)) = _
  rw [if_neg (by decide), mul_zero, sub_zero,
    show (∑ i, ∑ j, Real.sin (arr i j) * Real.cos (arr i j)) = Pcs arr from
      Finset.sum_congr rfl fun i _ =>
        Finset.sum_congr rfl fun j _ => mul_comm _ _]

theorem Qab_11 {r c : ℕ} (arr : Fin r → Fin c → ℝ) :
    Qab arr 1 1 =
      (Pss arr * 3 - ((r * c : ℕ) : ℝ)) / (2 * ((r * c : ℕ) : ℝ)) := by
  show ((∑ i, ∑ j, Real.sin (arr i j) * Real.sin (arr i j)) * 3 -
      ((r * c : ℕ) : ℝ) * (if (1 : Fin 3) = 1 then (1 : ℝ) else 0)) /
      (2 * ((r * c : ℕ) : ℝ)) = _
  rw [if_pos rfl, mul_one]
  rfl

theorem Qab_02 {r c : ℕ} (arr : Fin r → Fin c → ℝ) : Qab arr 0 2 = 0 := by
  show ((∑ i, ∑ j, Real.cos (arr i j) * 0) * 3 -
      ((r * c : ℕ) : ℝ) * (if (0 : Fin 3) = 2 then (1 : ℝ) else 0)) /
      (2 * ((r * c : ℕ) : ℝ)) = 0
  rw [if_neg (by decide)]
  simp

theorem Qab_20 {r c : ℕ} (arr : Fin r → Fin c → ℝ) : Qab arr 2 0 = 0 := by
  show ((∑ i, ∑ j, 0 * Real.cos (arr i j)) * 3 -
      ((r * c : ℕ) : ℝ) * (if (2 : Fin 3) = 0 then (1 : ℝ) else 0)) /
      (2 * ((r * c : ℕ) : ℝ)) = 0
  rw [if_neg (by decide)]
  simp

theorem Qab_12 {r c : ℕ} (arr : Fin r → Fin c → ℝ) : Qab arr 1 2 = 0 := by
  show ((∑ i, ∑ j, Real.sin (arr i j) * 0) * 3 -
      ((r * c : ℕ) : ℝ) * (if (1 : Fin 3) = 2 then (1 : ℝ) else 0)) /
      (2 * ((r * c : ℕ) : ℝ)) = 0
  rw [if_neg (by decide)]
  simp

theorem Qab_21 {r c : ℕ} (arr : Fin r → Fin c → ℝ) : Qab arr 2 1 = 0 := by
  show ((∑ i, ∑ j, 0 * Real.sin (arr i j)) * 3 -
      ((r * c : ℕ) : ℝ) * (if (2 : Fin 3) = 1 then (1 : ℝ) else 0)) /
      (2 * ((r * c : ℕ) : ℝ)) = 0
  rw [if_neg (by decide)]
  simp

theorem Qab_22 {r c : ℕ} (arr : Fin r → Fin c → ℝ) :
    Qab arr 2 2 = (0 - ((r * c : ℕ) : ℝ)) / (2 * ((r * c : ℕ) : ℝ)) := by
  show ((∑ i, ∑ j, (0 : ℝ) * 0) * 3 -
      ((r * c : ℕ) : ℝ) * (if (2 : Fin 3) = 2 then (1 : ℝ) else 0)) /
      (2 * ((r * c : ℕ) : ℝ)) = _
  rw [if_pos rfl, mul_one]
  simp

/-- Every root of the characteristic determinant of `Qab` lies in
`[-1/2, 1]`: a root has a nonzero vector `v` with `Qab v = μ v`, and the
quadratic form of `Qab` at `v` is `(3·Σ(u·v)² - N·‖v‖²) / (2N)` with
`0 ≤ Σ(u·v)² ≤ N·‖v‖²` since each director `u` is a unit vector. -/
theorem Qab_det_root_bounds {r c : ℕ} (arr : Fin r → Fin c → ℝ)
    (hN : 0 < r * c) {μ : ℝ} (hdet : (Qab arr - μ • 1).det = 0) :
    -(1 / 2) ≤ μ ∧ μ ≤ 1 := by
  obtain ⟨v, hv0, hv⟩ := (Matrix.exists_mulVec_eq_zero_iff).mpr hdet
  have hQv : Qab arr *ᵥ v = μ • v := by
    rw [Matrix.sub_mulVec, Matrix.smul_mulVec_assoc, Matrix.one_mulVec] at hv
    exact sub_eq_zero.mp hv
  have hN' : (0 : ℝ) < ((r * c : ℕ) : ℝ) := by exact_mod_cast hN
  -- the quadratic form of `Qab` at `v`, in closed form
  have h1 : ∑ a, v a * (Qab arr *ᵥ v) a = ∑ a, v a * (μ • v) a := by rw [hQv]
  have hmv : ∀ a : Fin 3, (Qab arr *ᵥ v) a =
      Qab arr a 0 * v 0 + Qab arr a 1 * v 1 + Qab arr a 2 * v 2 := by
    intro a
    show ∑ b, Qab arr a b * v b = _
    rw [Fin.sum_univ_three]
  rw [Fin.sum_univ_three, Fin.sum_univ_three, hmv 0, hmv 1, hmv 2,
    Qab_00, Qab_01, Qab_02, Qab_10, Qab_11, Qab_12, Qab_20, Qab_21, Qab_22]
    at h1
  simp only [Pi.smul_apply, smul_eq_mul] at h1
  field_simp at h1
  -- the director sum `T` and its bounds
  have hT : (∑ i, ∑ j,
        (v 0 * Real.cos (arr i j) + v 1 * Real.sin (arr i j)) ^ 2)
      = v 0 * v 0 * Pcc arr + 2 * (v 0 * v 1) * Pcs arr +
        v 1 * v 1 * Pss arr := by
    unfold Pcc Pcs Pss
    have hcell : ∀ (i : Fin r) (j : Fin c),
        (v 0 * Real.cos (arr i j) + v 1 * Real.sin (arr i j)) ^ 2 =
          v 0 * v 0 * (Real.cos (arr i j) * Real.cos (arr i j)) +
            2 * (v 0 * v 1) * (Real.cos (arr i j) * Real.sin (arr i j)) +
            v 1 * v 1 * (Real.sin (arr i j) * Real.sin (arr i j)) :=
      fun i j => by ring
    simp only [hcell, Finset.sum_add_distrib, ← Finset.mul_sum]
  have hT0 : (0 : ℝ) ≤ ∑ i, ∑ j,
      (v 0 * Real.cos (arr i j) + v 1 * Real.sin (arr i j)) ^ 2 :=
    Finset.sum_nonneg fun i _ => Finset.sum_nonneg fun j _ => sq_nonneg _
  have hTle : (∑ i, ∑ j,
        (v 0 * Real.cos (arr i j) + v 1 * Real.sin (arr i j)) ^ 2)
      ≤ ((r * c : ℕ) : ℝ) * (v 0 * v 0 + v 1 * v 1 + v 2 * v 2) := by
    have hcell : ∀ (i : Fin r) (j : Fin c),
        (v 0 * Real.cos (arr i j) + v 1 * Real.sin (arr i j)) ^ 2 ≤
          v 0 * v 0 + v 1 * v 1 + v 2 * v 2 := by
      intro i j
      nlinarith [Real.sin_sq_add_cos_sq (arr i j),
        sq_nonneg (v 0 * Real.sin (arr i j) - v 1 * Real.cos (arr i j)),
        mul_self_nonneg (v 2)]
    calc (∑ i, ∑ j,
          (v 0 * Real.cos (arr i j) + v 1 * Real.sin (arr i j)) ^ 2)
        ≤ ∑ _i : Fin r, ∑ _j : Fin c,
            (v 0 * v 0 + v 1 * v 1 + v 2 * v 2) :=
          Finset.sum_le_sum fun i _ =>
            Finset.sum_le_sum fun j _ => hcell i j
      _ = ((r * c : ℕ) : ℝ) * (v 0 * v 0 + v 1 * v 1 + v 2 * v 2) := by
          simp [Finset.sum_const, Finset.card_univ]
          ring
  have hS : (0 : ℝ) < v 0 * v 0 + v 1 * v 1 + v 2 * v 2 := by
    rcases Function.ne_iff.mp hv0 with ⟨a0, ha0⟩
    have h := Finset.sum_pos'
      (fun a (_ : a ∈ Finset.univ) => mul_self_nonneg (v a))
      ⟨a0, Finset.mem_univ a0, mul_self_pos.mpr ha0⟩
    rwa [Fin.sum_univ_three] at h
  have hr : 0 < r := by
    rcases Nat.eq_zero_or_pos r with h | h
    · subst h; simp at hN
    · exact h
  have hc : 0 < c := by
    rcases Nat.eq_zero_or_pos c with h | h
    · subst h; simp at hN
    · exact h
  have hrc : (0 : ℝ) < (r : ℝ) * (c : ℝ) := by
    have h1' : (0 : ℝ) < (r : ℝ) := by exact_mod_cast hr
    have h2' : (0 : ℝ) < (c : ℝ) := by exact_mod_cast hc
    positivity
  rw [div_eq_iff (by positivity : 2 * ((r : ℝ) * (c : ℝ)) ≠ 0)] at h1
  have hcast : ((r * c : ℕ) : ℝ) = (r : ℝ) * (c : ℝ) := Nat.cast_mul r c
  have hTle' : (∑ i, ∑ j,
        (v 0 * Real.cos (arr i j) + v 1 * Real.sin (arr i j)) ^ 2)
      ≤ (r : ℝ) * (c : ℝ) * (v 0 * v 0 + v 1 * v 1 + v 2 * v 2) := by
    rw [hcast] at hTle
    linarith [hTle]
  have key : 3 * (v 0 * v 0 * Pcc arr + 2 * (v 0 * v 1) * Pcs arr +
        v 1 * v 1 * Pss arr) =
      2 * ((r : ℝ) * (c : ℝ)) * μ * (v 0 * v 0 + v 1 * v 1 + v 2 * v 2) +
        (r : ℝ) * (c : ℝ) * (v 0 * v 0 + v 1 * v 1 + v 2 * v 2) := by
    linear_combination h1
  rw [hT] at hT0 hTle'
  clear hdet hv hQv hmv h1 hT hTle hv0 hN hN' hr hc
  constructor
  · nlinarith [key, hT0, hS, hrc, mul_pos hrc hS]
  · nlinarith [key, hTle', hS, hrc, mul_pos hrc hS]

/-- `Qab` is real symmetric (Hermitian), for any block. -/
theorem Qab_isHermitian {r c : ℕ} (arr : Fin r → Fin c → ℝ) :
    (Qab arr).IsHermitian := by
  show (Qab arr).conjTranspose = Qab arr
  ext a b
  rw [Matrix.conjTranspose_apply, star_trivial]
  show Matrix.of _ b a = Matrix.of _ a b
  simp only [Matrix.of_apply]
  have hsum : (∑ i, ∑ j, lab arr b i j * lab arr a i j) =
      ∑ i, ∑ j, lab arr a i j * lab arr b i j :=
    Finset.sum_congr rfl fun i _ =>
      Finset.sum_congr rfl fun j _ => mul_comm _ _
  rw [hsum]
  by_cases hab : a = b
  · rw [hab]
  · rw [if_neg hab, if_neg fun h => hab h.symm]

/-- `get_order` is the maximum of the eigenvalues of `Qab`. -/
theorem get_order_eq_sup {r c : ℕ} (arr : Fin r → Fin c → ℝ) :
    get_order arr =
      Finset.univ.sup' Finset.univ_nonempty
        ((Qab_isHermitian arr).eigenvalues) := rfl

/-! ### How the einsum entries transform under a global angle shift -/

theorem Pcc_shift {r c : ℕ} (arr : Fin r → Fin c → ℝ) (t : ℝ) :
    Pcc (fun i j => arr i j + t) =
      Real.cos t * Real.cos t * Pcc arr -
        2 * (Real.cos t * Real.sin t) * Pcs arr +
        Real.sin t * Real.sin t * Pss arr := by
  unfold Pcc Pcs Pss
  have hcell : ∀ (i : Fin r) (j : Fin c),
      Real.cos (arr i j + t) * Real.cos (arr i j + t) =
        Real.cos t * Real.cos t *
            (Real.cos (arr i j) * Real.cos (arr i j)) -
          2 * (Real.cos t * Real.sin t) *
            (Real.cos (arr i j) * Real.sin (arr i j)) +
          Real.sin t * Real.sin t *
            (Real.sin (arr i j) * Real.sin (arr i j)) := by
    intro i j
    rw [Real.cos_add]
    ring
  simp only [hcell, Finset.sum_add_distrib, Finset.sum_sub_distrib,
    ← Finset.mul_sum]

theorem Pss_shift {r c : ℕ} (arr : Fin r → Fin c → ℝ) (t : ℝ) :
    Pss (fun i j => arr i j + t) =
      Real.sin t * Real.sin t * Pcc arr +
        2 * (Real.cos t * Real.sin t) * Pcs arr +
        Real.cos t * Real.cos t * Pss arr := by
  unfold Pcc Pcs Pss
  have hcell : ∀ (i : Fin r) (j : Fin c),
      Real.sin (arr i j + t) * Real.sin (arr i j + t) =
        Real.sin t * Real.sin t *
            (Real.cos (arr i j) * Real.cos (arr i j)) +
          2 * (Real.cos t * Real.sin t) *
            (Real.cos (arr i j) * Real.sin (arr i j)) +
          Real.cos t * Real.cos t *
            (Real.sin (arr i j) * Real.sin (arr i j)) := by
    intro i j
    rw [Real.sin_add]
    ring
  simp only [hcell, Finset.sum_add_distrib, ← Finset.mul_sum]

theorem Pcs_shift {r c : ℕ} (arr : Fin r → Fin c → ℝ) (t : ℝ) :
    Pcs (fun i j => arr i j + t) =
      Real.cos t * Real.sin t * Pcc arr +
        (Real.cos t * Real.cos t - Real.sin t * Real.sin t) * Pcs arr -
        Real.cos t * Real.sin t * Pss arr := by
  unfold Pcc Pcs Pss
  have hcell : ∀ (i : Fin r) (j : Fin c),
      Real.cos (arr i j + t) * Real.sin (arr i j + t) =
        Real.cos t * Real.sin t *
            (Real.cos (arr i j) * Real.cos (arr i j)) +
          (Real.cos t * Real.cos t - Real.sin t * Real.sin t) *
            (Real.cos (arr i j) * Real.sin (arr i j)) -
          Real.cos t * Real.sin t *
            (Real.sin (arr i j) * Real.sin (arr i j)) := by
    intro i j
    rw [Real.cos_add, Real.sin_add]
    ring
  simp only [hcell, Finset.sum_add_distrib, Finset.sum_sub_distrib,
    ← Finset.mul_sum]

set_option maxHeartbeats 1600000 in
/-- Adding a constant to every angle does not change the characteristic
determinant of `Qab`: the shift conjugates `Qab` by a rotation about the
z-axis, so the trace and determinant of the upper 2×2 block are preserved. -/
theorem det_Qab_shift {r c : ℕ} (arr : Fin r → Fin c → ℝ) (t μ : ℝ) :
    (Qab (fun i j => arr i j + t) - μ • 1).det = (Qab arr - μ • 1).det := by
  have hcs : Real.cos t * Real.cos t + Real.sin t * Real.sin t = 1 := by
    have h := Real.sin_sq_add_cos_sq t
    linear_combination h
  have hT1 : Pcc (fun i j => arr i j + t) + Pss (fun i j => arr i j + t) =
      Pcc arr + Pss arr := by
    rw [Pcc_shift, Pss_shift]
    linear_combination (Pcc arr + Pss arr) * hcs
  have hT2 : Pcc (fun i j => arr i j + t) * Pss (fun i j => arr i j + t) -
        Pcs (fun i j => arr i j + t) * Pcs (fun i j => arr i j + t) =
      Pcc arr * Pss arr - Pcs arr * Pcs arr := by
    rw [Pcc_shift, Pss_shift, Pcs_shift]
    linear_combination ((Real.cos t * Real.cos t +
        Real.sin t * Real.sin t + 1) *
      (Pcc arr * Pss arr - Pcs arr * Pcs arr)) * hcs
  have o00 : (1 : Matrix (Fin 3) (Fin 3) ℝ) 0 0 = 1 := Matrix.one_apply_eq _
  have o11 : (1 : Matrix (Fin 3) (Fin 3) ℝ) 1 1 = 1 := Matrix.one_apply_eq _
  have o22 : (1 : Matrix (Fin 3) (Fin 3) ℝ) 2 2 = 1 := Matrix.one_apply_eq _
  have o01 : (1 : Matrix (Fin 3) (Fin 3) ℝ) 0 1 = 0 :=
    Matrix.one_apply_ne (by decide)
  have o02 : (1 : Matrix (Fin 3) (Fin 3) ℝ) 0 2 = 0 :=
    Matrix.one_apply_ne (by decide)
  have o10 : (1 : Matrix (Fin 3) (Fin 3) ℝ) 1 0 = 0 :=
    Matrix.one_apply_ne (by decide)
  have o12 : (1 : Matrix (Fin 3) (Fin 3) ℝ) 1 2 = 0 :=
    Matrix.one_apply_ne (by decide)
  have o20 : (1 : Matrix (Fin 3) (Fin 3) ℝ) 2 0 = 0 :=
    Matrix.one_apply_ne (by decide)
  have o21 : (1 : Matrix (Fin 3) (Fin 3) ℝ) 2 1 = 0 :=
    Matrix.one_apply_ne (by decide)
  rw [Matrix.det_fin_three, Matrix.det_fin_three]
  simp only [Matrix.sub_apply, Matrix.smul_apply, smul_eq_mul,
    o00, o01, o02, o10, o11, o12, o20, o21, o22,
    Qab_00, Qab_01, Qab_02, Qab_10, Qab_11, Qab_12, Qab_20, Qab_21, Qab_22]
  linear_combination (((0 - ((r * c : ℕ) : ℝ)) / (2 * ((r * c : ℕ) : ℝ)) - μ) *
      (9 * (1 / (2 * ((r * c : ℕ) : ℝ))) * (1 / (2 * ((r * c : ℕ) : ℝ))))) * hT2
    - (((0 - ((r * c : ℕ) : ℝ)) / (2 * ((r * c : ℕ) : ℝ)) - μ) *
      (3 * (1 / (2 * ((r * c : ℕ) : ℝ))) *
        (((r * c : ℕ) : ℝ) * (1 / (2 * ((r * c : ℕ) : ℝ))) + μ))) * hT1

set_option maxHeartbeats 1600000 in
/-- C9: for every lattice block and every real constant `t`, the order
parameter computed after adding `t` to every cell's angle equals the order
parameter of the original block (rotational invariance), and the returned
order parameter lies in the closed interval `[-0.5, 1.0]`. -/
theorem C9_order_parameter_invariance_and_range {r c : ℕ}
    (arr : Fin r → Fin c → ℝ) (t : ℝ) (hN : 0 < r * c) :
    get_order (fun i j => arr i j + t) = get_order arr ∧
    -(1 / 2) ≤ get_order arr ∧ get_order arr ≤ 1 := by
  have bounds : ∀ (B : Fin r → Fin c → ℝ) (i : Fin 3),
      -(1 / 2) ≤ (Qab_isHermitian B).eigenvalues i ∧
        (Qab_isHermitian B).eigenvalues i ≤ 1 := fun B i =>
    Qab_det_root_bounds B hN
      ((eigenvalues_mem_iff_det_eq_zero (Qab_isHermitian B) _).mp ⟨i, rfl⟩)
  refine ⟨?_, ?_, ?_⟩
  · -- rotational invariance, via the common characteristic determinant
    have hmut : ∀ i : Fin 3, ∃ j : Fin 3,
        (Qab_isHermitian arr).eigenvalues j =
          (Qab_isHermitian (fun i j => arr i j + t)).eigenvalues i := by
      intro i
      apply (eigenvalues_mem_iff_det_eq_zero (Qab_isHermitian arr) _).mpr
      rw [← det_Qab_shift arr t]
      exact (eigenvalues_mem_iff_det_eq_zero
        (Qab_isHermitian (fun i j => arr i j + t)) _).mp ⟨i, rfl⟩
    have hmut' : ∀ i : Fin 3, ∃ j : Fin 3,
        (Qab_isHermitian (fun i j => arr i j + t)).eigenvalues j =
          (Qab_isHermitian arr).eigenvalues i := by
      intro i
      apply (eigenvalues_mem_iff_det_eq_zero
        (Qab_isHermitian (fun i j => arr i j + t)) _).mpr
      rw [det_Qab_shift arr t]
      exact (eigenvalues_mem_iff_det_eq_zero
        (Qab_isHermitian arr) _).mp ⟨i, rfl⟩
    rw [get_order_eq_sup, get_order_eq_sup]
    apply le_antisymm
    · apply Finset.sup'_le
      intro i _
      obtain ⟨j, hj⟩ := hmut i
      rw [← hj]
      exact Finset.le_sup' _ (Finset.mem_univ j)
    · apply Finset.sup'_le
      intro i _
      obtain ⟨j, hj⟩ := hmut' i
      rw [← hj]
      exact Finset.le_sup' _ (Finset.mem_univ j)
  · rw [get_order_eq_sup]
    exact le_trans (bounds arr 0).1 (Finset.le_sup' _ (Finset.mem_univ 0))
  · rw [get_order_eq_sup]
    exact Finset.sup'_le _ _ fun i _ => (bounds arr i).2

/-- C9 witness: the 1×1 block with angle 0 (so `0 < r*c` holds). -/
theorem C9_order_parameter_invariance_and_range_witness :
    0 < 1 * 1 ∧
    (get_order (fun (i : Fin 1) (j : Fin 1) =>
        (fun (_ : Fin 1) (_ : Fin 1) => (0 : ℝ)) i j + 1) =
      get_order (fun (_ : Fin 1) (_ : Fin 1) => (0 : ℝ)) ∧
    -(1 / 2) ≤ get_order (fun (_ : Fin 1) (_ : Fin 1) => (0 : ℝ)) ∧
    get_order (fun (_ : Fin 1) (_ : Fin 1) => (0 : ℝ)) ≤ 1) :=
  ⟨by decide,
    C9_order_parameter_invariance_and_range
      (fun (_ : Fin 1) (_ : Fin 1) => (0 : ℝ)) 1 (by decide)⟩

end LebwohlLasher
